import Mathlib

/-
Verification of the JSON response-translation engine of the solrpy client
library (src/solrpy/core.py, class JSONResponseParser, plus the Response
container it fills in).

The engine works on the tree produced by decoding a JSON response body:
nested mappings with string keys, sequences, and scalars.  `json.load`
produces an alias-free tree (no two distinct positions share a mutable
object), so the source's in-place mutation of nodes is modelled here by
functional update of the tree at explicit positions: a working-set member
`obj` of the Python code is represented by the position (root index, key
path) at which it sits, and mutating `obj` is represented by writing the
rewritten node back at that position.

Transform callbacks may raise in Python; they are embedded as functions
into `Except eps JSON`, and every place where the source lets an exception
propagate is an `Except.error` here.
-/

set_option autoImplicit false

namespace Solrpy

/-- A key into a decoded-tree node: a mapping key (string) or a sequence
index (non-negative integer, as produced by Python's `enumerate`). -/
inductive JKey where
  | s (k : String)
  | i (n : Nat)
deriving DecidableEq, Repr

/-- A decoded JSON tree: the generic mapping / sequence / scalar shape that
`json.load` hands to the parser.  Mappings are association lists with
string keys (decoded Python dicts have unique string keys; uniqueness is
captured by `WF` below where proofs need it).  Numbers are embedded as
integers; no claim under verification involves floating point. -/
inductive JSON where
  | null
  | bool (b : Bool)
  | num (n : Int)
  | str (s : String)
  | arr (elems : List JSON)
  | obj (entries : List (String × JSON))
deriving Repr, Inhabited

/-- Membership-style lookup in a decoded mapping: `obj[key]` on a dict,
returning the value at the first (for a real dict: only) entry with the
given key, or `none` for a `KeyError`. -/
def dictGet : List (String × JSON) → String → Option JSON
  | [], _ => none
  | (k, v) :: rest, key => if k = key then some v else dictGet rest key

/-- The lookup `obj[self.val]` performed by `Attribute.values`/`items`:
a string key indexes a mapping; a (non-negative, as produced by
`enumerate` and modelled by `JKey.i`) integer key indexes a sequence —
or a string, where Python's `s[n]` succeeds for an in-range index and
yields the one-character string `s[n]`.  Every failing combination
(missing mapping key → KeyError, out-of-range sequence or string index →
IndexError, any other node/key pairing → TypeError) is `none`; the
source catches exactly those three exception types and yields nothing. -/
def childGet : JSON → JKey → Option JSON
  | .obj es, .s k => dictGet es k
  | .arr xs, .i n => xs.get? n
  | .str s, .i n => (s.data.get? n).map (fun c => JSON.str (String.mk [c]))
  | _, _ => none

/-- Replace the value at a mapping key, appending the pair when the key is
absent, as Python dict assignment would add it. -/
def dictSet : List (String × JSON) → String → JSON → List (String × JSON)
  | [], key, v => [(key, v)]
  | (k, w) :: rest, key, v =>
      if k = key then (k, v) :: rest else (k, w) :: dictSet rest key v

/-- Exceptions the engine can let escape: the `IndexError` raised by
indexing the empty component tuple (`cpath[-1]` when `len(cpath) == 0`)
or by an out-of-range sequence assignment, the `TypeError` family raised
by item assignment on a node that does not support it and by the response
assembler when the tree lacks the mapping shape its `pop`/property calls
need (Python's `TypeError`/`AttributeError`/`ValueError` all fail the
call the same way and are modelled by the one constructor), and an
exception raised by a caller-supplied transform, carried unchanged. -/
inductive PyErr (eps : Type) where
  | indexError
  | typeError
  | userError (e : eps)
deriving Repr, DecidableEq

/-- The assignment `obj[key] = v` of the leaf rewrite loop.  A mapping
assignment with a string key replaces (or adds) the entry; a sequence
assignment with an in-range index replaces the element and raises
`IndexError` out of range; item assignment on a string or any other
scalar raises `TypeError`, as does a sequence assignment with a string
key.  (A mapping assignment with an integer key succeeds in Python by
adding a non-string key; a JSON-decoded mapping cannot carry one and no
engine path produces such an assignment — a mapping's `items` yield only
string keys — so that arm leaves the node unchanged.) -/
def childSet {eps : Type} : JSON → JKey → JSON → Except (PyErr eps) JSON
  | .obj es, .s k, v => .ok (.obj (dictSet es k v))
  | .obj es, .i _, _ => .ok (.obj es)
  | .arr xs, .i n, v =>
      if n < xs.length then .ok (.arr (xs.set n v)) else .error .indexError
  | .arr _, .s _, _ => .error .typeError
  | .str _, _, _ => .error .typeError
  | .null, _, _ => .error .typeError
  | .bool _, _, _ => .error .typeError
  | .num _, _, _ => .error .typeError

/-- Read the node at a key path (root-to-leaf list of keys). -/
def getAt : JSON → List JKey → Option JSON
  | t, [] => some t
  | t, k :: p =>
      match childGet t k with
      | some c => getAt c p
      | none => none

/-- The functional write-through that makes an in-place mutation of a
child visible from its parent.  Unlike `childSet`, this is not an
operation of the source: it reconstructs the aliasing of the mutable
containers (mappings and sequences) in the functional tree.  A string
parent keeps its value: a child reached by indexing a string is a fresh
one-character string, not aliased with the parent, and no rewrite of such
a child can ever differ from it anyway (every item assignment on a string
raises inside the leaf loop before any write-back happens). -/
def childWrite : JSON → JKey → JSON → JSON
  | .obj es, .s k, v => .obj (dictSet es k v)
  | .arr xs, .i n, v => .arr (xs.set n v)
  | node, _, _ => node

/-- Functionally update the node at a key path; an invalid path leaves the
tree unchanged (unreachable in the engine: paths are built from `items` of
nodes actually present). -/
def setAt : JSON → List JKey → JSON → JSON
  | _, [], v => v
  | t, k :: p, v =>
      match childGet t k with
      | some c => childWrite t k (setAt c p v)
      | none => t

/-- The entries of a node enumerated by the base class
`JSONResponseParser.PathComponent.items`: all `(key, value)` pairs of a
mapping (`obj.items()`), all `(index, element)` pairs of a sequence
(`enumerate(obj)`), and nothing for any other shape (the method returns
the empty tuple). -/
def baseItems : JSON → List (JKey × JSON)
  | .obj es => es.map (fun kv => (JKey.s kv.1, kv.2))
  | .arr xs => xs.enum.map (fun p => (JKey.i p.1, p.2))
  | _ => []

/-- A compiled path component, the closed form of the three matcher classes
nested in `JSONResponseParser`: `Wildcard`, `Matcher` (a predicate on
keys; the spec calls it Predicate) and `Attribute` (one exact key). -/
inductive Component where
  | Wildcard
  | Matcher (cb : JKey → Bool)
  | Attribute (val : JKey)

/-- `items` of one component, from the source classes: the base-class
enumeration for `Wildcard` (which does not override `items`), the
base-class enumeration filtered through the callback for `Matcher`,
and the single pair `(val, obj[val])` — or nothing when the lookup
raises — for `Attribute`. -/
def Component.items : Component → JSON → List (JKey × JSON)
  | .Wildcard, node => baseItems node
  | .Matcher cb, node => (baseItems node).filter (fun kv => cb kv.1)
  | .Attribute val, node =>
      match childGet node val with
      | some v => [(val, v)]
      | none => []

/-- `values` of one component.  `Wildcard` overrides it directly
(`obj.values()` for a mapping, the sequence itself for a sequence, empty
otherwise); `Matcher` inherits the base-class derivation from its
(overridden, filtering) `items`; `Attribute` yields `obj[self.val]` or
nothing when the lookup raises. -/
def Component.values : Component → JSON → List JSON
  | .Wildcard, node =>
      match node with
      | .obj es => es.map (fun kv => kv.2)
      | .arr xs => xs
      | _ => []
  | .Matcher cb, node => ((baseItems node).filter (fun kv => cb kv.1)).map (fun kv => kv.2)
  | .Attribute val, node =>
      match childGet node val with
      | some v => [v]
      | none => []

/-- One element of a caller-supplied path specification, mirroring the
three-way test in `JSONResponseParser.compile_path`: the Python value
`None`, a callable, or any other value (an exact key). -/
inductive PathSpec where
  | wildcard
  | callable (cb : JKey → Bool)
  | attr (val : JKey)

/-- `JSONResponseParser.compile_path`: walk the caller's path specification
in reversed order, appending a `Wildcard` for `None`, a `Matcher` for a
callable, and an `Attribute` for anything else; the result is the fixed
(deepest-component-first) tuple of matchers. -/
def compile_path (path : List PathSpec) : List Component :=
  path.reverse.foldl
    (fun res component =>
      res ++ [match component with
              | .wildcard => Component.Wildcard
              | .callable cb => Component.Matcher cb
              | .attr val => Component.Attribute val])
    []

/-- Key uniqueness of one mapping's entry list (what a decoded Python dict
guarantees). -/
def keysNodup : List (String × JSON) → Bool
  | [] => true
  | (k, _) :: rest => !(rest.any (fun kv => kv.1 = k)) && keysNodup rest

mutual

/-- Well-formedness of a decoded tree: every mapping anywhere in it has
pairwise-distinct keys.  Every tree decoded from JSON by `json.load`
satisfies this, since Python dicts cannot hold a key twice. -/
def WF : JSON → Bool
  | .null => true
  | .bool _ => true
  | .num _ => true
  | .str _ => true
  | .arr xs => WFList xs
  | .obj es => keysNodup es && WFPairs es

/-- All elements of a sequence are well-formed. -/
def WFList : List JSON → Bool
  | [] => true
  | x :: xs => WF x && WFList xs

/-- All values of a mapping's entry list are well-formed. -/
def WFPairs : List (String × JSON) → Bool
  | [] => true
  | kv :: rest => WF kv.2 && WFPairs rest

end

/-- A position of a working-set member inside the forest of root objects
passed to `_translate`: the index of the root it lives under and the
root-to-node key path.  The Python working set holds object references;
since the decoded tree is alias-free, a reference is faithfully identified
by the unique position of the object in the forest. -/
def Pos : Type := Nat × List JKey

/-- Read the node at a position in the forest. -/
def getAtF (forest : List JSON) (p : Pos) : Option JSON :=
  match forest.get? p.1 with
  | some r => getAt r p.2
  | none => none

/-- Write a node at a position in the forest (in-place mutation of that
node, seen from the roots). -/
def setAtF (forest : List JSON) (p : Pos) (v : JSON) : List JSON :=
  match forest.get? p.1 with
  | some r => forest.set p.1 (setAt r p.2 v)
  | none => forest

/-- Concatenation of `f x` over the members of a list in order: the
`for obj in objects: new_objects.extend(f(obj))` accumulation pattern. -/
def concatMapL {α β : Type} (f : α → List β) : List α → List β
  | [] => []
  | x :: xs => f x ++ concatMapL f xs

/-- One iteration of the descent loop body of `_translate`:
`new_objects.extend(component.values(obj))` for every `obj` in the working
set.  Each child value `component.values(obj)` yields is recorded together
with the key it sits under (its position), which is the same enumeration
because `values` is `items` projected to the value half
(`values_eq_items_map_snd` below); the unreachable `none` arm covers
positions that do not address a node. -/
def fanout (roots : List JSON) (component : Component) (objects : List Pos) : List Pos :=
  concatMapL
    (fun p =>
      match getAtF roots p with
      | some node => (component.items node).map (fun kv => (p.1, p.2 ++ [kv.1]))
      | none => [])
    objects

/-- The working set of `_translate` after the `while ind:` descent loop:
starting from the root objects themselves (the positions `(i, [])`), each
component processed replaces the set by the concatenated fan-out of its
children. -/
def descentPositions (roots : List JSON) (descent : List Component) : List Pos :=
  descent.foldl (fun ps c => fanout roots c ps) ((List.range roots.length).map (fun i => (i, [])))

/-- The leaf phase of `_translate` for one working-set member `obj`:
`for key, val in cpath[0].items(obj): obj[key] = callback(val)`.
The pairs are the snapshot of the leaf component's `items` on the node;
the node accumulates its own rewrites through the assignment `childSet`.
A raising callback aborts the pass with its own exception (carried as
`userError`), and an assignment on a node that does not support it aborts
with the assignment's `TypeError`/`IndexError` — neither is caught. -/
def applyLeafNode {eps : Type} (leaf : Component) (callback : JSON → Except eps JSON)
    (node : JSON) : Except (PyErr eps) JSON :=
  (leaf.items node).foldlM
    (fun acc kv => do
      let v ← (callback kv.2).mapError PyErr.userError
      childSet acc kv.1 v)
    node

/-- `leafAt` places one node's leaf rewrite (`applyLeafNode`) back into the
forest at the node's position — in-place mutation of `obj` is exactly a
rewrite of the forest at `obj`'s position; the unreachable `none` arm
covers positions that do not address a node. -/
def leafAt {eps : Type} (leaf : Component) (callback : JSON → Except eps JSON)
    (forest : List JSON) (p : Pos) : Except (PyErr eps) (List JSON) :=
  match getAtF forest p with
  | some node =>
      (applyLeafNode leaf callback node).map (fun node2 => setAtF forest p node2)
  | none => pure forest

/-- `JSONResponseParser._translate(objects, cpath, callback)`.
`ind` starts at `len(cpath) - 1`; for an empty compiled path it is `-1`,
which is truthy, so the loop body indexes the empty tuple and raises
`IndexError` before touching any tree.  Otherwise the loop visits
`cpath[len-1] .. cpath[1]` — the reversed tail of the deepest-first tuple,
i.e. the caller's components outermost-first — fanning the working set
out, and the leaf phase rewrites every remaining member through
`cpath[0].items`. -/
def _translate {eps : Type} (objects : List JSON) (cpath : List Component)
    (callback : JSON → Except eps JSON) : Except (PyErr eps) (List JSON) :=
  match cpath with
  | [] => .error .indexError
  | leaf :: rest =>
      (descentPositions objects rest.reverse).foldlM (leafAt leaf callback) objects

/-- `JSONResponseParser.translate(*objects)`: apply each declared
`(compiled path, callback)` translator in declaration order, each as one
full `_translate` pass over the (already mutated) root objects. -/
def translate {eps : Type} (translators : List (List Component × (JSON → Except eps JSON)))
    (objects : List JSON) : Except (PyErr eps) (List JSON) :=
  translators.foldlM (fun objs t => _translate objs t.1 t.2) objects

/-- Python truthiness (`if not obj:`) of a decoded value: `None`, `False`,
zero, the empty string, the empty list and the empty dict are falsy. -/
def falsy : JSON → Bool
  | .null => true
  | .bool b => !b
  | .num n => n == 0
  | .str s => s == ""
  | .arr xs => xs.isEmpty
  | .obj es => es.isEmpty

/-- Remove the first (for a real dict: only) entry with the given key:
the removal half of `dict.pop(key, default)`. -/
def dictErase : List (String × JSON) → String → List (String × JSON)
  | [], _ => []
  | (k, v) :: rest, key => if k = key then rest else (k, v) :: dictErase rest key

/-- Python's `int(value)` on a decoded value, as invoked by the `numFound`
and `start` property setters of `Response` (and, value-for-value on the
integer-valued trees modelled here, `float(value)` for `maxScore`):
numbers pass through, booleans coerce to 0/1, integer-shaped strings
parse, and `None`, sequences and mappings raise `TypeError` (`none`). -/
def toInt : JSON → Option Int
  | .num n => some n
  | .bool b => some (if b then 1 else 0)
  | .str s => s.toInt?
  | _ => none

/-- The `Response` container filled in by `JSONResponseParser.__call__`:
`header` and `results` are the plain attributes assigned directly
(`self.header`, `self.results`), and `attrs` models the remaining
instance attributes installed via `setattr`, in insertion order.  The
`_params`/`_query` back-references stored by `_set_params` carry opaque
caller objects used only by the pagination helpers and play no part in
any claim, so they are not modelled. -/
structure Response where
  header : JSON := .null
  results : JSON := .arr []
  attrs : List (String × JSON) := []
deriving Repr, Inhabited

/-- Store an attribute on the instance dictionary: re-assigning an
existing attribute overwrites it in place, a new one is appended. -/
def attrStore (attrs : List (String × JSON)) (k : String) (v : JSON) : List (String × JSON) :=
  if (attrs.any (fun kv => kv.1 = k)) then dictSet attrs k v else attrs ++ [(k, v)]

/-- `setattr(response, k, v)` as `JSONResponseParser.__call__` performs it.
`header` and `results` are plain attributes, so those keys overwrite the
popped values; `numFound`, `start` and `maxScore` are properties whose
setters coerce through `int(value)`/`float(value)` and raise a
`TypeError`/`ValueError` on an uncoercible value; every other key lands
on the instance dictionary unchanged. -/
def setAttr {eps : Type} (r : Response) (k : String) (v : JSON) : Except (PyErr eps) Response :=
  if k = "header" then .ok { r with header := v }
  else if k = "results" then .ok { r with results := v }
  else if k = "numFound" || k = "start" || k = "maxScore" then
    match toInt v with
    | some n => .ok { r with attrs := attrStore r.attrs k (.num n) }
    | none => .error .typeError
  else .ok { r with attrs := attrStore r.attrs k v }

/-- `JSONResponseParser.__call__(data, params, query)` after `json.load`:
run every declared translator over the decoded tree, return nothing when
the translated tree is falsy, and otherwise assemble a `Response` by
popping `responseHeader` (default `None`) into `header`, popping
`response` (default `{}`) and from it `docs` (default `[]`) into
`results`, then `setattr`-ing every remaining key of the popped `response`
sub-mapping followed by every remaining key of the outer tree, skipping
keys literally named `"name"`.  A tree that is not a mapping (or whose
`response` value is not a mapping) makes the `pop` calls raise — one
shape-error constructor stands for Python's `TypeError`/`AttributeError`
there. -/
def parserCall {eps : Type} (translators : List (List Component × (JSON → Except eps JSON)))
    (tree : JSON) : Except (PyErr eps) (Option Response) := do
  let objs ← translate translators [tree]
  -- `self.translate(obj)` mutates `obj` in place; the rewritten root is the
  -- single element of the returned forest (`translate` preserves root count).
  let obj := objs.headD tree
  if falsy obj then
    return none
  else
    match obj with
    | .obj es =>
        let header := (dictGet es "responseHeader").getD .null
        let es2 := dictErase es "responseHeader"
        let rdJ := (dictGet es2 "response").getD (.obj [])
        let es3 := dictErase es2 "response"
        match rdJ with
        | .obj rd =>
            let results := (dictGet rd "docs").getD (.arr [])
            let rd2 := dictErase rd "docs"
            let init : Response := { header := header, results := results }
            let r ← (rd2 ++ es3).foldlM
              (fun r kv => if kv.1 = "name" then pure r else setAttr r kv.1 kv.2) init
            return some r
        | _ => .error .typeError
    | _ => .error .typeError

/-- Written from the spec's words (for comparison with `compile_path`):
the per-element compilation rule — `None` becomes a Wildcard, a callable
becomes a Predicate holding that function, any other value becomes an
Attribute matched by equality. -/
def specCompile : PathSpec → Component
  | .wildcard => .Wildcard
  | .callable cb => .Matcher cb
  | .attr val => .Attribute val

/-- Written from the spec's words (for comparison with the engine): the
working set of node values after processing a list of components, each
step replacing the set with the concatenation of `values(node)` over
every node currently in it. -/
def specWorkingSet (cs : List Component) (objects : List JSON) : List JSON :=
  cs.foldl (fun objs c => concatMapL (fun node => c.values node) objs) objects

/-- Written from the spec's words (for comparison with the engine): apply
an action to each root in order, keeping the rewritten roots, aborting at
the first raising action. -/
def mapME {eps : Type} (f : JSON → Except eps JSON) : List JSON → Except eps (List JSON)
  | [] => pure []
  | x :: xs => do
      let v ← f x
      let vs ← mapME f xs
      pure (v :: vs)

/-- Is the node a mapping or a sequence?  (Statement-side shorthand for
the shapes whose entries `Wildcard` and `Matcher` can enumerate.) -/
def isContainer : JSON → Bool
  | .obj _ => true
  | .arr _ => true
  | _ => false

/-- A document of the shape used by the repository's response-parser
tests: text, timestamp, id and hits fields. -/
def sampleDoc (text : JSON) (stamp ident : String) (hits : Int) : JSON :=
  .obj [("text", text), ("timestamp", .str stamp), ("ident", .str ident), ("hits", .num hits)]

/-- The decoded two-document query response used by the repository's
response-parser tests, with the two `text` fields left as parameters so
that translated variants can be written down. -/
def sampleTree (t1 t2 : JSON) : JSON :=
  .obj [("responseHeader", .obj [("status", .num 0), ("QTime", .num 0)]),
        ("response", .obj [("numFound", .num 2), ("start", .num 0),
          ("docs", .arr [sampleDoc t1 "2012-02-22T00:00:01Z" "someid" 513,
                         sampleDoc t2 "2012-02-23T00:00:01Z" "otherid" 111])])]

/-- The transform `len`: the length of a string, a `TypeError` on the
(non-sized) scalar values it is applied to in these claims. -/
def strLen : JSON → Except String JSON
  | .str s => .ok (.num s.length)
  | _ => .error "TypeError: len"

/-- The transform `lambda x: x - 1`: one less than a number, a `TypeError`
on anything that does not subtract with an int. -/
def minusOne : JSON → Except String JSON
  | .num n => .ok (.num (n - 1))
  | _ => .error "TypeError: sub"

/-- The path specification `('response', 'docs', None, 'text')` of the
repository's wildcard-path test. -/
def docsTextPath : List PathSpec :=
  [.attr (.s "response"), .attr (.s "docs"), .wildcard, .attr (.s "text")]

/-- The sample response forest handed to `translate`: the single decoded
two-document tree. -/
def sampleRoots : List JSON := [sampleTree (.str "hello world") (.str "farewell world")]

/-- A two-string-field mapping used to show that a failing transform's
error carries no path information. -/
def pairTree : JSON := .obj [("a", .str "u"), ("b", .str "v")]

/-- The predicate `lambda k: k.startswith('te')` of the repository's
callback-leaf test, false on integer (sequence-index) keys. -/
def startsTe : JKey → Bool
  | .s s => "te".data.isPrefixOf s.data
  | .i _ => false

/-- A two-field document for exercising a predicate leaf: one key matching
`startsTe`, one not. -/
def teDoc : JSON := .obj [("text", .str "ab"), ("ident", .str "z")]

/-- A tree carrying both a `responseHeader` key and a top-level `header`
extension key, which collides with the `Response.header` attribute. -/
def headerShadowTree : JSON :=
  .obj [("responseHeader", .num 7), ("header", .str "x")]

theorem mem_concatMapL {α β : Type} {f : α → List β} {l : List α} {b : β} :
    b ∈ concatMapL f l ↔ ∃ a ∈ l, b ∈ f a := by
  induction l with
  | nil => simp [concatMapL]
  | cons x xs ih => simp [concatMapL, ih]

theorem map_concatMapL {α β γ : Type} (f : α → List β) (g : β → γ) (l : List α) :
    (concatMapL f l).map g = concatMapL (fun a => (f a).map g) l := by
  induction l with
  | nil => simp [concatMapL]
  | cons x xs ih => simp [concatMapL, ih]

theorem values_eq_items_map_snd (c : Component) (node : JSON) :
    c.values node = (c.items node).map Prod.snd := by
  cases c with
  | Wildcard =>
      cases node <;>
        simp only [Component.values, Component.items, baseItems, List.map_map, List.map_nil]
      case arr xs =>
        rw [show (Prod.snd ∘ fun p : Nat × JSON => (JKey.i p.1, p.2)) = Prod.snd from rfl,
          List.enum_map_snd]
      case obj es =>
        rfl
  | Matcher cb => simp [Component.values, Component.items]
  | Attribute val =>
      simp only [Component.values, Component.items]
      cases childGet node val <;> simp

theorem dictGet_mem {es : List (String × JSON)} {k : String} {v : JSON}
    (h : dictGet es k = some v) : (k, v) ∈ es := by
  induction es with
  | nil => simp [dictGet] at h
  | cons kv rest ih =>
      obtain ⟨k0, v0⟩ := kv
      by_cases hk : k0 = k
      · subst hk
        simp [dictGet] at h
        simp [h]
      · simp [dictGet, hk] at h
        exact List.mem_cons_of_mem _ (ih h)

theorem dictGet_of_nodup {es : List (String × JSON)} (hn : keysNodup es = true)
    {k : String} {v : JSON} (h : (k, v) ∈ es) : dictGet es k = some v := by
  induction es with
  | nil => simp at h
  | cons kv rest ih =>
      obtain ⟨k0, v0⟩ := kv
      simp only [keysNodup, Bool.and_eq_true, Bool.not_eq_true'] at hn
      rcases List.mem_cons.mp h with h | h
      · obtain ⟨rfl, rfl⟩ := Prod.mk.injEq .. ▸ h
        simp [dictGet]
      · by_cases hk : k0 = k
        · subst hk
          have : rest.any (fun kv => kv.1 = k0) = true :=
            List.any_eq_true.mpr ⟨(k0, v), h, by simp⟩
          rw [this] at hn
          cases hn.1
        · simp only [dictGet, hk, if_false]
          exact ih hn.2 h

theorem WF_obj {es : List (String × JSON)} (h : WF (.obj es) = true) :
    keysNodup es = true ∧ WFPairs es = true := by
  rw [WF] at h
  exact Bool.and_eq_true .. ▸ h

theorem WFPairs_mem {es : List (String × JSON)} (h : WFPairs es = true)
    {k : String} {v : JSON} (hm : (k, v) ∈ es) : WF v = true := by
  induction es with
  | nil => simp at hm
  | cons kv rest ih =>
      rw [WFPairs, Bool.and_eq_true] at h
      rcases List.mem_cons.mp hm with hm | hm
      · rw [← hm] at h
        exact h.1
      · exact ih h.2 hm

theorem WFList_mem {xs : List JSON} (h : WFList xs = true) {v : JSON} (hm : v ∈ xs) :
    WF v = true := by
  induction xs with
  | nil => simp at hm
  | cons x rest ih =>
      rw [WFList, Bool.and_eq_true] at h
      rcases List.mem_cons.mp hm with hm | hm
      · exact hm ▸ h.1
      · exact ih h.2 hm

theorem baseItems_childGet {node : JSON} (hwf : WF node = true) {k : JKey} {v : JSON}
    (h : (k, v) ∈ baseItems node) : childGet node k = some v := by
  cases node with
  | obj es =>
      simp only [baseItems, List.mem_map] at h
      obtain ⟨⟨k0, v0⟩, hmem, heq⟩ := h
      obtain ⟨rfl, rfl⟩ := Prod.mk.injEq .. ▸ heq
      exact dictGet_of_nodup (WF_obj hwf).1 hmem
  | arr xs =>
      simp only [baseItems, List.mem_map] at h
      obtain ⟨⟨i, v0⟩, hmem, heq⟩ := h
      obtain ⟨rfl, rfl⟩ := Prod.mk.injEq .. ▸ heq
      simpa [childGet, List.get?_eq_getElem?] using List.mk_mem_enum_iff_getElem?.mp hmem
  | null => simp [baseItems] at h
  | bool b => simp [baseItems] at h
  | num n => simp [baseItems] at h
  | str s => simp [baseItems] at h

theorem items_childGet {c : Component} {node : JSON} (hwf : WF node = true) {k : JKey} {v : JSON}
    (h : (k, v) ∈ c.items node) : childGet node k = some v := by
  cases c with
  | Wildcard => exact baseItems_childGet hwf h
  | Matcher cb => exact baseItems_childGet hwf (List.mem_of_mem_filter h)
  | Attribute val =>
      simp only [Component.items] at h
      cases hg : childGet node val with
      | none => rw [hg] at h; simp at h
      | some w =>
          rw [hg] at h
          simp only [List.mem_singleton] at h
          obtain ⟨rfl, rfl⟩ := Prod.mk.injEq .. ▸ h
          exact hg

theorem WF_childGet {node : JSON} (hwf : WF node = true) {k : JKey} {v : JSON}
    (h : childGet node k = some v) : WF v = true := by
  cases node with
  | obj es =>
      cases k with
      | s k0 => exact WFPairs_mem (WF_obj hwf).2 (dictGet_mem h)
      | i n => simp [childGet] at h
  | arr xs =>
      cases k with
      | s k0 => simp [childGet] at h
      | i n =>
          rw [WF] at hwf
          exact WFList_mem hwf (List.get?_mem h)
  | null => simp [childGet] at h
  | bool b => simp [childGet] at h
  | num n => simp [childGet] at h
  | str s =>
      cases k with
      | s k0 => simp [childGet] at h
      | i n =>
          simp only [childGet] at h
          cases hg : s.data.get? n with
          | none => rw [hg] at h; cases h
          | some c =>
              rw [hg] at h
              cases h
              rw [WF]

theorem getAt_singleton (t : JSON) (k : JKey) : getAt t [k] = childGet t k := by
  cases h : childGet t k <;> simp [getAt, h]

theorem getAt_append (t : JSON) (p q : List JKey) :
    getAt t (p ++ q) = (getAt t p).bind (fun n => getAt n q) := by
  induction p generalizing t with
  | nil => simp [getAt]
  | cons k p ih =>
      simp only [List.cons_append, getAt]
      cases childGet t k with
      | some c => exact ih c
      | none => simp

theorem WF_getAt {t : JSON} (hwf : WF t = true) {p : List JKey} {n : JSON}
    (h : getAt t p = some n) : WF n = true := by
  induction p generalizing t with
  | nil => simp [getAt] at h; exact h ▸ hwf
  | cons k p ih =>
      simp only [getAt] at h
      cases hg : childGet t k with
      | some c =>
          rw [hg] at h
          exact ih (WF_childGet hwf hg) h
      | none => rw [hg] at h; cases h

theorem getAtF_child {roots : List JSON} {p : Pos} {w : JSON}
    (h : getAtF roots p = some w) (k : JKey) :
    getAtF roots (p.1, p.2 ++ [k]) = childGet w k := by
  unfold getAtF at h ⊢
  cases hr : roots.get? p.1 with
  | none => rw [hr] at h; cases h
  | some r =>
      rw [hr] at h
      change getAt r p.2 = some w at h
      simp only [hr, getAt_append, h, Option.some_bind, getAt_singleton]

theorem WF_concatMapL_values {c : Component} {ws : List JSON}
    (hW : ∀ n ∈ ws, WF n = true) :
    ∀ m ∈ concatMapL (fun node => c.values node) ws, WF m = true := by
  intro m hm
  obtain ⟨n, hn, hmn⟩ := mem_concatMapL.mp hm
  rw [values_eq_items_map_snd] at hmn
  obtain ⟨⟨k, v⟩, hkv, rfl⟩ := List.mem_map.mp hmn
  exact WF_childGet (hW n hn) (items_childGet (hW n hn) hkv)

theorem fanout_map_getAtF {roots : List JSON} {c : Component} {ps : List Pos} {ws : List JSON}
    (hW : ∀ n ∈ ws, WF n = true)
    (h : ps.map (getAtF roots) = ws.map some) :
    (fanout roots c ps).map (getAtF roots)
      = (concatMapL (fun node => c.values node) ws).map some := by
  induction ps generalizing ws with
  | nil =>
      cases ws with
      | nil => simp [fanout, concatMapL]
      | cons w ws => simp at h
  | cons p ps ih =>
      cases ws with
      | nil => simp at h
      | cons w ws =>
          simp only [List.map_cons, List.cons.injEq] at h
          obtain ⟨hp, hps⟩ := h
          have hWw : WF w = true := hW w (List.mem_cons_self w ws)
          have hWws : ∀ n ∈ ws, WF n = true := fun n hn => hW n (List.mem_cons_of_mem _ hn)
          simp only [fanout, concatMapL, List.map_append] at ih ⊢
          rw [ih hWws hps, hp]
          congr 1
          rw [List.map_map, values_eq_items_map_snd, List.map_map]
          refine List.map_congr_left (fun kv hkv => ?_)
          simpa using (getAtF_child hp kv.1).trans (items_childGet hWw hkv)

theorem descent_fold_spec (roots : List JSON) (cs : List Component) :
    ∀ (ps : List Pos) (ws : List JSON), (∀ n ∈ ws, WF n = true) →
      ps.map (getAtF roots) = ws.map some →
      (cs.foldl (fun ps c => fanout roots c ps) ps).map (getAtF roots)
        = (specWorkingSet cs ws).map some := by
  induction cs with
  | nil => intro ps ws _ h; exact h
  | cons c cs ih =>
      intro ps ws hW h
      simp only [List.foldl_cons, specWorkingSet] at ih ⊢
      exact ih (fanout roots c ps) _ (WF_concatMapL_values hW) (fanout_map_getAtF hW h)

theorem getAtF_root (roots : List JSON) (i : Nat) : getAtF roots (i, []) = roots.get? i := by
  unfold getAtF
  cases roots.get? i <;> simp [getAt]

theorem range_map_get? {α : Type} (l : List α) :
    (List.range l.length).map (fun i => l.get? i) = l.map some := by
  induction l with
  | nil => simp
  | cons x xs ih =>
      rw [List.length_cons, List.range_succ_eq_map, List.map_cons, List.map_map]
      simp only [List.get?_cons_zero, List.map_cons]
      congr 1

theorem initPositions_map_getAtF (roots : List JSON) :
    ((List.range roots.length).map (fun i => ((i, []) : Pos))).map (getAtF roots)
      = roots.map some := by
  rw [List.map_map, ← range_map_get? roots]
  exact List.map_congr_left (fun i _ => getAtF_root roots i)

theorem descentPositions_spec (roots : List JSON) (cs : List Component)
    (hwf : ∀ r ∈ roots, WF r = true) :
    (descentPositions roots cs).map (getAtF roots) = (specWorkingSet cs roots).map some := by
  unfold descentPositions
  exact descent_fold_spec roots cs _ roots hwf (initPositions_map_getAtF roots)

theorem set_append_len {α : Type} (pre : List α) (x v : α) (xs : List α) :
    (pre ++ x :: xs).set pre.length v = pre ++ v :: xs := by
  induction pre with
  | nil => rfl
  | cons y ys ih => simp [List.set, ih]

theorem get?_append_len {α : Type} (pre : List α) (x : α) (xs : List α) :
    (pre ++ x :: xs).get? pre.length = some x := by
  induction pre with
  | nil => rfl
  | cons y ys ih => simpa using ih

theorem leafAt_root_append {eps : Type} (c : Component) (f : JSON → Except eps JSON)
    (pre : List JSON) (x : JSON) (xs : List JSON) :
    leafAt c f (pre ++ x :: xs) (pre.length, []) =
      (applyLeafNode c f x).map (fun v => pre ++ v :: xs) := by
  unfold leafAt getAtF setAtF
  simp only [get?_append_len, getAt]
  cases applyLeafNode c f x with
  | error e => rfl
  | ok v => simp [setAt, set_append_len]

theorem foldlM_leafAt_roots {eps : Type} (c : Component) (f : JSON → Except eps JSON) :
    ∀ (post pre : List JSON),
      ((List.range' pre.length post.length).map (fun i => ((i, ([] : List JKey)) : Pos))).foldlM
          (leafAt c f) (pre ++ post)
        = (mapME (applyLeafNode c f) post).map (fun post2 => pre ++ post2) := by
  intro post
  induction post with
  | nil =>
      intro pre
      simp [List.range', mapME, Except.map, pure, Except.pure]
  | cons x xs ih =>
      intro pre
      rw [List.length_cons, List.range'_succ, List.map_cons, List.foldlM_cons,
        leafAt_root_append]
      cases hx : applyLeafNode c f x with
      | error e => simp [hx, mapME, Except.map, bind, Except.bind]
      | ok v =>
          simp only [hx, mapME, Except.map, bind, Except.bind]
          have happ : pre ++ v :: xs = (pre ++ [v]) ++ xs := by simp
          have hlen : pre.length + 1 = (pre ++ [v]).length := by simp
          rw [happ, hlen, ih (pre ++ [v])]
          cases hxs : mapME (applyLeafNode c f) xs <;>
            simp [Except.map, bind, Except.bind, pure, Except.pure]

theorem foldl_append_eq {α β : Type} (g : α → β) :
    ∀ (l : List α) (acc : List β),
      l.foldl (fun res c => res ++ [g c]) acc = acc ++ l.map g := by
  intro l
  induction l with
  | nil => intro acc; simp
  | cons x xs ih => intro acc; simp [ih]

theorem compile_path_eq_map (path : List PathSpec) :
    compile_path path = path.reverse.map specCompile := by
  show path.reverse.foldl (fun res c => res ++ [specCompile c]) [] = path.reverse.map specCompile
  rw [foldl_append_eq specCompile]
  simp

theorem compile_path_last_cons (path : List PathSpec) (hne : path ≠ []) :
    compile_path path
      = specCompile (path.getLast hne) :: (path.dropLast.map specCompile).reverse := by
  rw [compile_path_eq_map]
  conv_lhs => rw [← List.dropLast_append_getLast hne]
  simp

/-- C1: for a non-empty compiled path over any roots, `translate`'s descent
produces, from the roots as the initial working set, exactly the spec's
working set — the concatenation of `values(node)` over the members, once
per path component except the last, outermost-first — and the pass then
rewrites through the final (leaf) component's `items` over exactly that
working set, each produced `(key, value)` being overwritten in place with
`transform(value)`; a path of length 1 applies the leaf component's
`items` directly to each root with no descent. -/
theorem c1_translate_follows_working_set {eps : Type}
    (path : List PathSpec) (roots : List JSON) (f : JSON → Except eps JSON)
    (hne : path ≠ []) (hwf : ∀ r ∈ roots, WF r = true) :
    ((descentPositions roots (path.dropLast.map specCompile)).map (getAtF roots)
        = (specWorkingSet (path.dropLast.map specCompile) roots).map some)
    ∧ (_translate roots (compile_path path) f =
        (descentPositions roots (path.dropLast.map specCompile)).foldlM
          (leafAt (specCompile (path.getLast hne)) f) roots)
    ∧ (path.length = 1 →
        _translate roots (compile_path path) f =
          mapME (applyLeafNode (specCompile (path.getLast hne)) f) roots) := by
  have hb : _translate roots (compile_path path) f =
      (descentPositions roots (path.dropLast.map specCompile)).foldlM
        (leafAt (specCompile (path.getLast hne)) f) roots := by
    rw [compile_path_last_cons path hne]
    simp only [_translate, List.reverse_reverse]
  refine ⟨descentPositions_spec roots _ hwf, hb, fun hlen => ?_⟩
  obtain ⟨x, rfl⟩ : ∃ x, path = [x] := by
    cases path with
    | nil => cases hne rfl
    | cons x rest =>
        cases rest with
        | nil => exact ⟨x, rfl⟩
        | cons y rest => simp at hlen
  rw [hb]
  have hfold := foldlM_leafAt_roots (specCompile ([x].getLast hne)) f roots []
  simp only [List.nil_append, List.length_nil] at hfold
  have hinit : descentPositions roots (List.map specCompile [x].dropLast)
      = (List.range' 0 roots.length).map (fun i => ((i, []) : Pos)) := by
    rw [← List.range_eq_range']
    rfl
  rw [hinit, hfold]
  cases mapME (applyLeafNode (specCompile ([x].getLast hne)) f) roots <;> rfl

/-- C1 witness: the working-set correspondence instantiated at the sample
two-document tree and the wildcard `text` path. -/
theorem c1_witness :
    (descentPositions sampleRoots (docsTextPath.dropLast.map specCompile)).map
        (getAtF sampleRoots)
      = (specWorkingSet (docsTextPath.dropLast.map specCompile) sampleRoots).map some :=
  (c1_translate_follows_working_set docsTextPath sampleRoots strLen
    (by simp [docsTextPath])
    (by
      intro r hr
      simp only [sampleRoots, List.mem_singleton] at hr
      subst hr
      simp [sampleTree, sampleDoc, WF, WFList, WFPairs, keysNodup])).1

/-- C4: `compile_path` returns the fixed ordered tuple of matchers in
reversed (deepest-component-first) order: element 0 is the compiled last
(leaf-level) element of the specification, `None` compiles to Wildcard, a
callable to a Predicate holding that function, and any other value to an
Attribute matched by equality. -/
theorem c4_compile_path_reverses_and_maps :
    (∀ path : List PathSpec, compile_path path = path.reverse.map specCompile)
    ∧ (∀ path : List PathSpec, (compile_path path).head? = path.getLast?.map specCompile)
    ∧ (compile_path [PathSpec.wildcard] = [Component.Wildcard])
    ∧ (∀ cb, compile_path [PathSpec.callable cb] = [Component.Matcher cb])
    ∧ (∀ val, compile_path [PathSpec.attr val] = [Component.Attribute val])
    ∧ (∀ (val : JKey) (node : JSON) (k : JKey) (w : JSON),
        (k, w) ∈ (Component.Attribute val).items node → k = val ∧ childGet node val = some w) := by
  refine ⟨compile_path_eq_map, fun path => ?_, rfl, fun _ => rfl, fun _ => rfl,
    fun val node k w h => ?_⟩
  · cases path with
    | nil => rfl
    | cons x rest =>
        rw [compile_path_last_cons (x :: rest) (by simp), List.head?_cons,
          List.getLast?_eq_getLast (x :: rest) (by simp)]
        rfl
  · simp only [Component.items] at h
    cases hg : childGet node val with
    | none => rw [hg] at h; cases h
    | some w2 =>
        rw [hg] at h
        simp only [List.mem_singleton, Prod.mk.injEq] at h
        refine ⟨h.1, ?_⟩
        rw [h.2]

/-- C4 witness: the Attribute equality-matching conjunct applied at the
concrete key `"a"` of `pairTree`. -/
theorem c4_witness :
    JKey.s "a" = JKey.s "a" ∧ childGet pairTree (.s "a") = some (.str "u") :=
  c4_compile_path_reverses_and_maps.2.2.2.2.2 (.s "a") pairTree (.s "a") (.str "u")
    (by simp [Component.items, pairTree, childGet, dictGet])

/-- C5: the matcher operations never surface lookup or shape failures.
Every failing `Attribute` lookup — a missing mapping key, an out-of-range
sequence or string index, or a node/key pairing of the wrong type (all of
which `childGet` sends to `none`, mirroring the caught
`KeyError`/`IndexError`/`TypeError`) — yields nothing from both `values`
and `items` instead of propagating an error, and `Wildcard` and `Matcher`
(the spec's Predicate) applied to a node that is neither a mapping nor a
sequence yield empty results.  (An in-range integer-index lookup on a
string is not a failure: Python's `s[n]` succeeds and yields a
one-character string, faithfully modelled by `childGet`.) -/
theorem c5_lookup_miss_and_shape_mismatch_empty :
    (∀ (node : JSON) (val : JKey), childGet node val = none →
        (Component.Attribute val).values node = [] ∧ (Component.Attribute val).items node = [])
    ∧ (∀ (es : List (String × JSON)) (k : String), dictGet es k = none →
        childGet (.obj es) (.s k) = none)
    ∧ (∀ (xs : List JSON) (n : Nat), xs.length ≤ n → childGet (.arr xs) (.i n) = none)
    ∧ (∀ (s : String) (n : Nat), s.data.length ≤ n → childGet (.str s) (.i n) = none)
    ∧ (∀ (es : List (String × JSON)) (n : Nat), childGet (.obj es) (.i n) = none)
    ∧ (∀ (xs : List JSON) (k : String), childGet (.arr xs) (.s k) = none)
    ∧ (∀ (s k : String), childGet (.str s) (.s k) = none)
    ∧ (∀ (val : JKey) (b : Bool) (n : Int),
        childGet .null val = none ∧ childGet (.bool b) val = none
          ∧ childGet (.num n) val = none)
    ∧ (∀ node : JSON, isContainer node = false →
        (Component.Wildcard.values node = [] ∧ Component.Wildcard.items node = [])
        ∧ (∀ cb, (Component.Matcher cb).values node = []
            ∧ (Component.Matcher cb).items node = [])) := by
  refine ⟨?_, ?_, ?_, ?_, fun es n => rfl, fun xs k => rfl, fun s k => rfl,
    fun val b n => ⟨by cases val <;> rfl, by cases val <;> rfl, by cases val <;> rfl⟩, ?_⟩
  · intro node val h
    simp [Component.values, Component.items, h]
  · intro es k h
    exact h
  · intro xs n h
    exact List.get?_eq_none.mpr h
  · intro s n h
    show (s.data.get? n).map (fun c => JSON.str (String.mk [c])) = none
    rw [List.get?_eq_none.mpr h]
    rfl
  · intro node h
    constructor
    · cases node <;> first | exact ⟨rfl, rfl⟩ | simp [isContainer] at h
    · intro cb
      cases node <;> first | exact ⟨rfl, rfl⟩ | simp [isContainer] at h

/-- C5 witness: an Attribute lookup for a missing key on the scalar `3`
yields nothing, an out-of-range string index is a miss, and a Wildcard on
a non-container yields nothing. -/
theorem c5_witness :
    (Component.Attribute (.s "k")).values (.num 3) = []
    ∧ (Component.Attribute (.s "k")).items (.num 3) = []
    ∧ childGet (.str "ab") (.i 5) = none
    ∧ Component.Wildcard.values (.num 3) = [] := by
  have h := c5_lookup_miss_and_shape_mismatch_empty
  exact ⟨(h.1 (.num 3) (.s "k") rfl).1, (h.1 (.num 3) (.s "k") rfl).2,
    h.2.2.2.1 "ab" 5 (by decide),
    ((h.2.2.2.2.2.2.2.2 (.num 3) rfl).1).1⟩

theorem baseItems_key_obj {es : List (String × JSON)} {k : JKey} {v : JSON}
    (h : (k, v) ∈ baseItems (.obj es)) : ∃ s, k = JKey.s s := by
  simp only [baseItems, List.mem_map] at h
  obtain ⟨kv, _, heq⟩ := h
  exact ⟨kv.1, ((Prod.mk.injEq .. ▸ heq).1).symm⟩

theorem baseItems_key_arr {xs : List JSON} {k : JKey} {v : JSON}
    (h : (k, v) ∈ baseItems (.arr xs)) : ∃ n, k = JKey.i n ∧ n < xs.length := by
  simp only [baseItems, List.mem_map] at h
  obtain ⟨p, hp, heq⟩ := h
  refine ⟨p.1, ((Prod.mk.injEq .. ▸ heq).1).symm, ?_⟩
  have hp2 : (p.1, p.2) ∈ xs.enum := hp
  have := List.mk_mem_enum_iff_getElem?.mp hp2
  by_contra hn
  rw [List.getElem?_eq_none (Nat.le_of_not_lt hn)] at this
  cases this

theorem childGet_key_obj {es : List (String × JSON)} {k : JKey} {w : JSON}
    (h : childGet (.obj es) k = some w) : ∃ s, k = JKey.s s := by
  cases k with
  | s s0 => exact ⟨s0, rfl⟩
  | i n => cases h

theorem childGet_key_arr {xs : List JSON} {k : JKey} {w : JSON}
    (h : childGet (.arr xs) k = some w) : ∃ n, k = JKey.i n ∧ n < xs.length := by
  cases k with
  | s s0 => cases h
  | i n =>
      refine ⟨n, rfl, ?_⟩
      by_contra hn
      rw [show childGet (.arr xs) (.i n) = xs.get? n from rfl,
        List.get?_eq_none.mpr (Nat.le_of_not_lt hn)] at h
      cases h

theorem items_mem_cases {c : Component} {node : JSON} {k : JKey} {v : JSON}
    (h : (k, v) ∈ c.items node) : (k, v) ∈ baseItems node ∨ childGet node k = some v := by
  cases c with
  | Wildcard => exact Or.inl h
  | Matcher cb => exact Or.inl (List.mem_of_mem_filter h)
  | Attribute val =>
      simp only [Component.items] at h
      cases hg : childGet node val with
      | none => rw [hg] at h; cases h
      | some w =>
          rw [hg] at h
          simp only [List.mem_singleton, Prod.mk.injEq] at h
          right
          rw [h.1, h.2]
          exact hg

theorem items_key_obj {c : Component} {es : List (String × JSON)} {k : JKey} {v : JSON}
    (h : (k, v) ∈ c.items (.obj es)) : ∃ s, k = JKey.s s := by
  rcases items_mem_cases h with h2 | h2
  · exact baseItems_key_obj h2
  · exact childGet_key_obj h2

theorem items_key_arr {c : Component} {xs : List JSON} {k : JKey} {v : JSON}
    (h : (k, v) ∈ c.items (.arr xs)) : ∃ n, k = JKey.i n ∧ n < xs.length := by
  rcases items_mem_cases h with h2 | h2
  · exact baseItems_key_arr h2
  · exact childGet_key_arr h2

theorem foldlM_assign_no_idx_obj {eps : Type} {f : JSON → Except eps JSON} :
    ∀ (pairs : List (JKey × JSON)) (es : List (String × JSON)),
      (∀ kv ∈ pairs, ∃ s, kv.1 = JKey.s s) →
      pairs.foldlM (fun acc kv => do
          let v ← (f kv.2).mapError PyErr.userError
          childSet acc kv.1 v) (JSON.obj es)
        ≠ (.error .indexError : Except (PyErr eps) JSON) := by
  intro pairs
  induction pairs with
  | nil => intro es _ h; cases h
  | cons kv rest ih =>
      intro es hkeys h
      obtain ⟨s, hks⟩ := hkeys kv (List.mem_cons_self kv rest)
      rw [List.foldlM_cons, hks] at h
      cases hf : f kv.2 with
      | error e2 =>
          rw [hf] at h
          simp [Except.mapError, bind, Except.bind] at h
      | ok w =>
          rw [hf] at h
          simp only [Except.mapError, bind, Except.bind, childSet] at h
          exact ih (dictSet es s w) (fun kv2 h2 => hkeys kv2 (List.mem_cons_of_mem kv h2)) h

theorem foldlM_assign_no_idx_arr {eps : Type} {f : JSON → Except eps JSON} :
    ∀ (pairs : List (JKey × JSON)) (xs : List JSON),
      (∀ kv ∈ pairs, ∃ n, kv.1 = JKey.i n ∧ n < xs.length) →
      pairs.foldlM (fun acc kv => do
          let v ← (f kv.2).mapError PyErr.userError
          childSet acc kv.1 v) (JSON.arr xs)
        ≠ (.error .indexError : Except (PyErr eps) JSON) := by
  intro pairs
  induction pairs with
  | nil => intro xs _ h; cases h
  | cons kv rest ih =>
      intro xs hkeys h
      obtain ⟨n, hkn, hlt⟩ := hkeys kv (List.mem_cons_self kv rest)
      rw [List.foldlM_cons, hkn] at h
      cases hf : f kv.2 with
      | error e2 =>
          rw [hf] at h
          simp [Except.mapError, bind, Except.bind] at h
      | ok w =>
          rw [hf] at h
          simp only [Except.mapError, bind, Except.bind, childSet, if_pos hlt] at h
          refine ih (xs.set n w) (fun kv2 h2 => ?_) h
          obtain ⟨n2, hk2, hlt2⟩ := hkeys kv2 (List.mem_cons_of_mem kv h2)
          exact ⟨n2, hk2, by simpa [List.length_set] using hlt2⟩

theorem applyLeafNode_no_indexError {eps : Type} {c : Component} {f : JSON → Except eps JSON}
    {node : JSON} : applyLeafNode c f node ≠ (.error .indexError : Except (PyErr eps) JSON) := by
  cases node with
  | obj es => exact foldlM_assign_no_idx_obj _ es (fun kv hkv => items_key_obj hkv)
  | arr xs => exact foldlM_assign_no_idx_arr _ xs (fun kv hkv => items_key_arr hkv)
  | str s =>
      cases c with
      | Wildcard => intro h; cases h
      | Matcher cb => intro h; cases h
      | Attribute val =>
          cases val with
          | s k0 => intro h; cases h
          | i n =>
              unfold applyLeafNode
              show (Component.items _ _).foldlM _ _ ≠ _
              simp only [Component.items]
              cases hg : childGet (.str s) (.i n) with
              | none => intro h; cases h
              | some w =>
                  intro h
                  rw [List.foldlM_cons] at h
                  cases hf : f w with
                  | error e2 =>
                      rw [hf] at h
                      simp [Except.mapError, bind, Except.bind] at h
                  | ok v =>
                      rw [hf] at h
                      simp [Except.mapError, bind, Except.bind, childSet] at h
  | null =>
      cases c with
      | Wildcard => intro h; cases h
      | Matcher cb => intro h; cases h
      | Attribute val => cases val <;> (intro h; cases h)
  | bool b =>
      cases c with
      | Wildcard => intro h; cases h
      | Matcher cb => intro h; cases h
      | Attribute val => cases val <;> (intro h; cases h)
  | num n =>
      cases c with
      | Wildcard => intro h; cases h
      | Matcher cb => intro h; cases h
      | Attribute val => cases val <;> (intro h; cases h)

theorem leafAt_no_indexError {eps : Type} {c : Component} {f : JSON → Except eps JSON}
    {forest : List JSON} {p : Pos} :
    leafAt c f forest p ≠ (.error .indexError : Except (PyErr eps) (List JSON)) := by
  unfold leafAt
  cases hg : getAtF forest p with
  | none => intro h; cases h
  | some node =>
      show (applyLeafNode c f node).map (fun node2 => setAtF forest p node2) ≠ _
      intro h
      cases ha : applyLeafNode c f node with
      | error e =>
          rw [ha] at h
          cases h
          exact absurd ha applyLeafNode_no_indexError
      | ok v => rw [ha] at h; cases h

theorem foldlM_leafAt_no_indexError {eps : Type} {c : Component} {f : JSON → Except eps JSON} :
    ∀ (ps : List Pos) (forest : List JSON),
      ps.foldlM (leafAt c f) forest ≠ (.error .indexError : Except (PyErr eps) (List JSON)) := by
  intro ps
  induction ps with
  | nil => intro forest h; cases h
  | cons p ps ih =>
      intro forest h
      rw [List.foldlM_cons] at h
      cases hl : leafAt c f forest p with
      | error e =>
          rw [hl] at h
          cases h
          exact absurd hl leafAt_no_indexError
      | ok forest2 =>
          rw [hl] at h
          exact ih forest2 h

/-- C10: a zero-length compiled path — exactly what compiling the empty
path specification produces — makes `_translate` raise an `IndexError`
(the descent loop starts at index `-1`, which is truthy, and indexes the
empty component tuple) instead of acting as a no-op; with at least one
component that error branch is unreachable: the only `IndexError` a
non-empty pass could raise would be an out-of-range sequence assignment,
and every key the leaf loop writes comes from `items` of the node being
written, so it is in range. -/
theorem c10_empty_compiled_path :
    (compile_path [] = [])
    ∧ (∀ (eps : Type) (objs : List JSON) (f : JSON → Except eps JSON),
        _translate objs [] f = .error .indexError)
    ∧ (∀ (eps : Type) (objs : List JSON) (cpath : List Component) (f : JSON → Except eps JSON),
        cpath ≠ [] → _translate objs cpath f ≠ .error .indexError) := by
  refine ⟨rfl, fun eps objs f => rfl, fun eps objs cpath f hne => ?_⟩
  cases cpath with
  | nil => cases hne rfl
  | cons leaf rest => exact foldlM_leafAt_no_indexError _ objs

/-- C10 witness: at a concrete one-component path the `IndexError` branch
is not taken. -/
theorem c10_witness :
    _translate [pairTree] [Component.Wildcard] strLen ≠ .error .indexError :=
  c10_empty_compiled_path.2.2 String [pairTree] [Component.Wildcard] strLen (by simp)

/-- C2: translators are applied in declaration order, each as one full
pass over the tree, so transforms targeting the same leaf compose
left-to-right: with A = string length and B = subtract one on the
wildcard `text` path of the sample two-document tree, `[A, B]` rewrites
the `text` fields to `len(x) - 1` (10 and 13), while `[B, A]` raises B's
type error because B receives a string. -/
theorem c2_declaration_order_composes :
    (∀ (eps : Type) (t : List Component × (JSON → Except eps JSON))
        (ts : List (List Component × (JSON → Except eps JSON))) (objs : List JSON),
        translate (t :: ts) objs =
          match _translate objs t.1 t.2 with
          | .ok objs2 => translate ts objs2
          | .error e => .error e)
    ∧ (translate [(compile_path docsTextPath, strLen), (compile_path docsTextPath, minusOne)]
          [sampleTree (.str "hello world") (.str "farewell world")]
        = .ok [sampleTree (.num 10) (.num 13)])
    ∧ (translate [(compile_path docsTextPath, minusOne), (compile_path docsTextPath, strLen)]
          [sampleTree (.str "hello world") (.str "farewell world")]
        = .error (.userError "TypeError: sub")) := by
  refine ⟨fun eps t ts objs => ?_, rfl, rfl⟩
  rw [translate, List.foldlM_cons]
  cases _translate objs t.1 t.2 <;> rfl

/-- C7: a raising transform is not caught by the translation engine: its
error aborts the pass, skips every remaining translator of the call, and
propagates unchanged through the assembler to the caller. -/
theorem c7_transform_error_uncaught :
    (∀ (eps : Type) (t : List Component × (JSON → Except eps JSON))
        (ts : List (List Component × (JSON → Except eps JSON))) (objs : List JSON)
        (e : PyErr eps),
        _translate objs t.1 t.2 = .error e → translate (t :: ts) objs = .error e)
    ∧ (∀ (eps : Type) (ts : List (List Component × (JSON → Except eps JSON)))
        (tree : JSON) (e : PyErr eps),
        translate ts [tree] = .error e → parserCall ts tree = .error e) := by
  constructor
  · intro eps t ts objs e h
    rw [translate, List.foldlM_cons, h]
    rfl
  · intro eps ts tree e h
    unfold parserCall
    rw [h]
    rfl

/-- C7 witness: the concrete failing subtract-one translator on a string
field aborts the whole call with its own error, skipping the remaining
translator, and the assembler surfaces that same error. -/
theorem c7_witness :
    translate [(compile_path [.attr (.s "a")], minusOne), (compile_path [.attr (.s "b")], strLen)]
        [pairTree] = .error (.userError "TypeError: sub")
    ∧ parserCall [(compile_path [.attr (.s "a")], minusOne)] pairTree
        = .error (.userError "TypeError: sub") :=
  ⟨c7_transform_error_uncaught.1 String (compile_path [.attr (.s "a")], minusOne)
      [(compile_path [.attr (.s "b")], strLen)] [pairTree] (.userError "TypeError: sub") rfl,
    c7_transform_error_uncaught.2 String [(compile_path [.attr (.s "a")], minusOne)]
      pairTree (.userError "TypeError: sub") rfl⟩

/-- C9: when the tree left by the declared translators is empty/falsy, the
parser returns nothing — no Response is constructed. -/
theorem c9_falsy_tree_yields_none {eps : Type}
    (ts : List (List Component × (JSON → Except eps JSON))) (tree : JSON) (objs : List JSON)
    (htr : translate ts [tree] = .ok objs) (hf : falsy (objs.headD tree) = true) :
    parserCall ts tree = .ok none := by
  unfold parserCall
  rw [htr]
  show (Except.ok objs >>= fun objs => _) = _
  simp only [bind, Except.bind]
  rw [if_pos hf]
  rfl

theorem childSet_no_userError {eps : Type} (acc : JSON) (k : JKey) (v : JSON) (e : eps) :
    childSet acc k v ≠ .error (.userError e) := by
  cases acc <;> cases k <;> intro h <;>
    first
    | cases h
    | (rw [childSet] at h
       split at h
       · cases h
       · cases h)

theorem foldlM_assign_userError {eps : Type} {f : JSON → Except eps JSON} {e : eps} :
    ∀ (pairs : List (JKey × JSON)) (acc : JSON),
      pairs.foldlM (fun acc kv => do
          let v ← (f kv.2).mapError PyErr.userError
          childSet acc kv.1 v) acc = .error (.userError e) →
      ∃ v, f v = .error e := by
  intro pairs
  induction pairs with
  | nil => intro acc h; cases h
  | cons kv rest ih =>
      intro acc h
      rw [List.foldlM_cons] at h
      cases hf : f kv.2 with
      | error e2 =>
          rw [hf] at h
          cases h
          exact ⟨kv.2, hf⟩
      | ok w =>
          rw [hf] at h
          simp only [Except.mapError, bind, Except.bind] at h
          cases hcs : @childSet eps acc kv.1 w with
          | error e2 =>
              rw [hcs] at h
              cases h
              exact absurd hcs (childSet_no_userError acc kv.1 w e)
          | ok acc2 =>
              rw [hcs] at h
              exact ih acc2 h

theorem applyLeafNode_userError {eps : Type} {c : Component} {f : JSON → Except eps JSON}
    {node : JSON} {e : eps} (h : applyLeafNode c f node = .error (.userError e)) :
    ∃ v, f v = .error e :=
  foldlM_assign_userError _ _ h

theorem leafAt_userError {eps : Type} {c : Component} {f : JSON → Except eps JSON}
    {forest : List JSON} {p : Pos} {e : eps} (h : leafAt c f forest p = .error (.userError e)) :
    ∃ v, f v = .error e := by
  unfold leafAt at h
  cases hg : getAtF forest p with
  | none => rw [hg] at h; cases h
  | some node =>
      rw [hg] at h
      change (applyLeafNode c f node).map (fun node2 => setAtF forest p node2)
        = Except.error (.userError e) at h
      cases ha : applyLeafNode c f node with
      | error e2 =>
          rw [ha] at h
          cases h
          exact applyLeafNode_userError ha
      | ok v => rw [ha] at h; cases h

theorem foldlM_leafAt_userError {eps : Type} {c : Component} {f : JSON → Except eps JSON}
    {e : eps} :
    ∀ (ps : List Pos) (forest : List JSON),
      ps.foldlM (leafAt c f) forest = .error (.userError e) → ∃ v, f v = .error e := by
  intro ps
  induction ps with
  | nil => intro forest h; cases h
  | cons p ps ih =>
      intro forest h
      rw [List.foldlM_cons] at h
      cases hl : leafAt c f forest p with
      | error e2 =>
          rw [hl] at h
          cases h
          exact leafAt_userError hl
      | ok forest2 =>
          rw [hl] at h
          exact ih _ h

theorem _translate_userError {eps : Type} {objs : List JSON} {cpath : List Component}
    {f : JSON → Except eps JSON} {e : eps}
    (h : _translate objs cpath f = .error (.userError e)) : ∃ v, f v = .error e := by
  cases cpath with
  | nil => simp [_translate] at h
  | cons leaf rest => exact foldlM_leafAt_userError _ _ h

/-- C6 counterexample: no `TranslationError` wrapping the offending path
and key exists — two translators that fail at different paths and keys
surface literally the same error, namely the transform's own error value
unchanged, so the raised error cannot identify which translator or path
failed. -/
theorem c6_counterexample :
    translate [(compile_path [.attr (.s "a")], minusOne)] [pairTree]
        = .error (.userError "TypeError: sub")
    ∧ translate [(compile_path [.attr (.s "b")], minusOne)] [pairTree]
        = .error (.userError "TypeError: sub")
    ∧ minusOne (.str "u") = .error "TypeError: sub"
    ∧ minusOne (.str "v") = .error "TypeError: sub" :=
  ⟨rfl, rfl, rfl, rfl⟩

/-- C6 amended: when a declared transform fails during translation, the
failure the caller sees is the transform's own exception carried
unchanged — no `TranslationError` wrapping the offending path and key is
constructed (no such class exists in the code).  Precisely: whenever the
error surfaced by `translate` is a transform's raised exception (a
`userError`, as opposed to the engine's own `IndexError` on an empty
compiled path or the `TypeError` of an unsupported leaf assignment), it
is exactly some declared transform's error on some value, identifying
neither the translator nor the path. -/
theorem c6_surfaced_error_is_transforms_own {eps : Type}
    (translators : List (List Component × (JSON → Except eps JSON)))
    (objs : List JSON) (e : eps)
    (h : translate translators objs = .error (.userError e)) :
    ∃ t ∈ translators, ∃ v, t.2 v = .error e := by
  induction translators generalizing objs with
  | nil => cases h
  | cons t ts ih =>
      rw [translate, List.foldlM_cons] at h
      cases ht : _translate objs t.1 t.2 with
      | error e2 =>
          rw [ht] at h
          cases h
          obtain ⟨v, hv⟩ := _translate_userError ht
          exact ⟨t, List.mem_cons_self t ts, v, hv⟩
      | ok objs2 =>
          rw [ht] at h
          obtain ⟨t2, ht2, v, hv⟩ := ih objs2 h
          exact ⟨t2, List.mem_cons_of_mem t ht2, v, hv⟩

/-- C6 witness: applied at the concrete failing subtract-one translator. -/
theorem c6_witness :
    ∃ t ∈ [(compile_path [.attr (.s "a")], minusOne)], ∃ v, t.2 v = .error "TypeError: sub" :=
  c6_surfaced_error_is_transforms_own [(compile_path [.attr (.s "a")], minusOne)]
    [pairTree] "TypeError: sub" rfl

theorem dictGet_dictSet_ne {k1 k2 : String} (hne : k1 ≠ k2) (v : JSON) :
    ∀ es : List (String × JSON), dictGet (dictSet es k2 v) k1 = dictGet es k1 := by
  have hne2 : ¬(k2 = k1) := fun h => hne h.symm
  intro es
  induction es with
  | nil => simp [dictSet, dictGet, hne2]
  | cons kv rest ih =>
      obtain ⟨k0, w0⟩ := kv
      by_cases hk : k0 = k2
      · subst hk
        rw [show dictSet ((k0, w0) :: rest) k0 v = (k0, v) :: rest from by simp [dictSet]]
        simp [dictGet, hne2]
      · simp only [dictSet, if_neg hk, dictGet]
        by_cases hk1 : k0 = k1
        · simp [hk1]
        · simp [hk1, ih]

theorem get?_set_ne {α : Type} {n m : Nat} (hne : n ≠ m) (w : α) :
    ∀ xs : List α, (xs.set n w).get? m = xs.get? m := by
  intro xs
  induction xs generalizing n m with
  | nil => simp
  | cons x rest ih =>
      cases n with
      | zero =>
          cases m with
          | zero => cases hne rfl
          | succ m => rfl
      | succ n =>
          cases m with
          | zero => rfl
          | succ m => exact ih (fun h => hne (h ▸ rfl))

theorem childSet_ok_childGet_ne {eps : Type} {node : JSON} {k2 : JKey} {w acc2 : JSON}
    (h : childSet node k2 w = (.ok acc2 : Except (PyErr eps) JSON))
    {k1 : JKey} (hne : k1 ≠ k2) : childGet acc2 k1 = childGet node k1 := by
  cases node with
  | obj es =>
      cases k2 with
      | s s2 =>
          cases h
          cases k1 with
          | s s1 =>
              have hs : s1 ≠ s2 := fun h2 => hne (by rw [h2])
              exact dictGet_dictSet_ne hs w es
          | i n1 => rfl
      | i n2 => cases h; rfl
  | arr xs =>
      cases k2 with
      | i n2 =>
          rw [childSet] at h
          split at h
          · cases h
            cases k1 with
            | i n1 =>
                have hn : n2 ≠ n1 := fun h2 => hne (by rw [h2])
                exact get?_set_ne hn w xs
            | s s1 => rfl
          · cases h
      | s s2 => cases h
  | null => cases h
  | bool b => cases h
  | num n => cases h
  | str s => cases h

theorem foldlM_childSet_preserves {eps : Type} {f : JSON → Except eps JSON} {k : JKey} {v : JSON} :
    ∀ (pairs : List (JKey × JSON)) (acc res : JSON),
      (∀ kv ∈ pairs, kv.1 ≠ k) → childGet acc k = some v →
      pairs.foldlM (fun acc kv => do
          let w ← (f kv.2).mapError PyErr.userError
          childSet acc kv.1 w) acc = (.ok res : Except (PyErr eps) JSON) →
      childGet res k = some v := by
  intro pairs
  induction pairs with
  | nil =>
      intro acc res _ hv h
      cases h
      exact hv
  | cons kv rest ih =>
      intro acc res hne hv h
      rw [List.foldlM_cons] at h
      cases hf : f kv.2 with
      | error e => rw [hf] at h; cases h
      | ok w =>
          rw [hf] at h
          simp only [Except.mapError, bind, Except.bind] at h
          cases hcs : @childSet eps acc kv.1 w with
          | error e =>
              rw [hcs] at h
              cases h
          | ok acc2 =>
              rw [hcs] at h
              refine ih acc2 res (fun kv2 h2 => hne kv2 (List.mem_cons_of_mem kv h2)) ?_ h
              rw [childSet_ok_childGet_ne hcs
                (fun h2 => hne kv (List.mem_cons_self kv rest) h2.symm)]
              exact hv

/-- C8: a Predicate component's `items` enumerates exactly the mapping
entries whose raw string key satisfies the callback, and exactly the
sequence elements whose integer positional index satisfies it; entries
whose key does not satisfy the callback are not yielded, and a leaf
rewrite through the Predicate leaves them untouched. -/
theorem c8_predicate_filters_by_key :
    (∀ (cb : JKey → Bool) (es : List (String × JSON)),
        (Component.Matcher cb).items (.obj es)
          = (es.map (fun kv => (JKey.s kv.1, kv.2))).filter (fun kv => cb kv.1))
    ∧ (∀ (cb : JKey → Bool) (xs : List JSON),
        (Component.Matcher cb).items (.arr xs)
          = (xs.enum.map (fun p => (JKey.i p.1, p.2))).filter (fun kv => cb kv.1))
    ∧ (∀ (eps : Type) (cb : JKey → Bool) (f : JSON → Except eps JSON) (node res : JSON)
        (k : JKey) (v : JSON),
        WF node = true →
        applyLeafNode (Component.Matcher cb) f node = .ok res →
        (k, v) ∈ baseItems node → cb k = false →
        childGet res k = some v) := by
  refine ⟨fun cb es => rfl, fun cb xs => rfl, ?_⟩
  intro eps cb f node res k v hwf hap hmem hcb
  refine foldlM_childSet_preserves _ node res ?_ (baseItems_childGet hwf hmem) hap
  intro kv hkv heq
  simp only [Component.items] at hkv
  have : cb kv.1 = true := by simpa using List.of_mem_filter hkv
  rw [heq, hcb] at this
  cases this

/-- C8 witness: at the concrete two-field document, the `startswith('te')`
predicate leaf rewrites `text` and leaves the non-matching `ident` field
untouched. -/
theorem c8_witness : childGet (.obj [("text", .num 2), ("ident", .str "z")]) (.s "ident")
    = some (.str "z") :=
  c8_predicate_filters_by_key.2.2 String startsTe strLen teDoc
    (.obj [("text", .num 2), ("ident", .str "z")]) (.s "ident") (.str "z")
    (by simp [teDoc, WF, WFPairs, keysNodup]) rfl (by simp [teDoc, baseItems]) rfl

/-- C9 witness: the empty mapping, untranslated, yields no Response. -/
theorem c9_witness :
    parserCall ([] : List (List Component × (JSON → Except String JSON))) (.obj [])
      = .ok none :=
  c9_falsy_tree_yields_none [] (.obj []) [.obj []] rfl rfl

theorem foldlM_setAttr_append {eps : Type} :
    ∀ (pairs : List (String × JSON)) (r : Response),
      (∀ kv ∈ pairs, kv.1 ≠ "header" ∧ kv.1 ≠ "results"
        ∧ ((kv.1 = "numFound" ∨ kv.1 = "start" ∨ kv.1 = "maxScore") →
            ∃ n : Int, kv.2 = .num n)) →
      (∀ kv ∈ pairs, r.attrs.any (fun kv2 => kv2.1 = kv.1) = false) →
      keysNodup pairs = true →
      (pairs.foldlM (fun r kv => if kv.1 = "name" then pure r else setAttr r kv.1 kv.2) r
          : Except (PyErr eps) Response)
        = .ok { r with attrs := r.attrs ++ pairs.filter (fun kv => kv.1 ≠ "name") } := by
  intro pairs
  induction pairs with
  | nil =>
      intro r _ _ _
      simp only [List.foldlM_nil, List.filter_nil, List.append_nil]
      rfl
  | cons kv rest ih =>
      intro r hcond hdisj hnodup
      obtain ⟨k0, v0⟩ := kv
      obtain ⟨hh, hrr, hnum⟩ := hcond (k0, v0) (List.mem_cons_self _ rest)
      rw [keysNodup, Bool.and_eq_true, Bool.not_eq_true'] at hnodup
      rw [List.foldlM_cons]
      by_cases hname : k0 = "name"
      · rw [if_pos hname]
        have hstep : (pure r >>= fun r2 =>
            rest.foldlM (fun r kv => if kv.1 = "name" then pure r else setAttr r kv.1 kv.2) r2
              : Except (PyErr eps) Response)
            = rest.foldlM (fun r kv => if kv.1 = "name" then pure r else setAttr r kv.1 kv.2) r :=
          rfl
        rw [hstep, ih r (fun kv2 h2 => hcond kv2 (List.mem_cons_of_mem _ h2))
          (fun kv2 h2 => hdisj kv2 (List.mem_cons_of_mem _ h2)) hnodup.2]
        simp [List.filter_cons, hname]
      · have hdisj0 : r.attrs.any (fun kv2 => kv2.1 = k0) = false :=
          hdisj (k0, v0) (List.mem_cons_self _ rest)
        have hstore : attrStore r.attrs k0 v0 = r.attrs ++ [(k0, v0)] := by
          unfold attrStore
          rw [if_neg (by simp [hdisj0])]
        have hsa : (setAttr r k0 v0 : Except (PyErr eps) Response)
            = .ok { r with attrs := r.attrs ++ [(k0, v0)] } := by
          unfold setAttr
          rw [if_neg hh, if_neg hrr]
          by_cases hn : k0 = "numFound" ∨ k0 = "start" ∨ k0 = "maxScore"
          · obtain ⟨n, hv⟩ := hnum hn
            have hv2 : v0 = JSON.num n := hv
            subst hv2
            rw [if_pos (by simp only [Bool.or_eq_true, decide_eq_true_eq]; tauto)]
            simp only [toInt]
            rw [hstore]
          · rw [if_neg (by simp only [Bool.or_eq_true, decide_eq_true_eq]; tauto), hstore]
        rw [if_neg hname, hsa]
        have hdisj2 : ∀ kv2 ∈ rest,
            (r.attrs ++ [(k0, v0)]).any (fun kv3 => kv3.1 = kv2.1) = false := by
          intro kv2 h2
          rw [List.any_append]
          have h1 : r.attrs.any (fun kv3 => kv3.1 = kv2.1) = false :=
            hdisj kv2 (List.mem_cons_of_mem _ h2)
          have h2ne : ¬(k0 = kv2.1) := by
            intro hc
            have hany : rest.any (fun kv3 => kv3.1 = k0) = true :=
              List.any_eq_true.mpr ⟨kv2, h2, by simp [hc.symm]⟩
            rw [hany] at hnodup
            cases hnodup.1
          simp [h1, h2ne]
        have hstep : ((Except.ok { r with attrs := r.attrs ++ [(k0, v0)] }
              : Except (PyErr eps) Response) >>= fun r2 =>
            rest.foldlM (fun r kv => if kv.1 = "name" then pure r else setAttr r kv.1 kv.2) r2)
            = rest.foldlM (fun r kv => if kv.1 = "name" then pure r else setAttr r kv.1 kv.2)
                { r with attrs := r.attrs ++ [(k0, v0)] } := rfl
        rw [hstep, ih _ (fun kv2 h2 => hcond kv2 (List.mem_cons_of_mem _ h2)) hdisj2 hnodup.2]
        simp [List.filter_cons, hname]

/-- C3 counterexample: the claim that the built Response's `header` is
always the popped `responseHeader` value fails — a remaining top-level
key literally named `header` is `setattr`-ed onto the Response afterwards
and overwrites it.  On `headerShadowTree` the popped `responseHeader`
value is the number `7`, yet the Response is built with header `"x"`. -/
theorem c3_counterexample :
    dictGet [("responseHeader", .num 7), ("header", .str "x")] "responseHeader"
        = some (.num 7)
    ∧ parserCall ([] : List (List Component × (JSON → Except String JSON))) headerShadowTree
        = .ok (some { header := .str "x", results := .arr [], attrs := [] })
    ∧ JSON.str "x" ≠ JSON.num 7 :=
  ⟨rfl, rfl, fun h => JSON.noConfusion h⟩

/-- C3 amended: for a translated tree that is a non-empty mapping whose
`response` value (after popping `responseHeader`; absent defaults to an
empty mapping) is a mapping, the assembler builds a Response whose header
is the popped `responseHeader` value (null when absent), whose results is
the `docs` sequence popped from the popped `response` mapping (empty
sequence default), and whose remaining attributes are every leftover key
of the popped `response` sub-mapping followed by every leftover key of
the outer tree, minus keys literally named `name` — provided those
leftover keys avoid the Response's own attribute names `header` and
`results`, carry numeric values under the coercing property names
`numFound`/`start`/`maxScore`, and are pairwise distinct; in particular
with zero declared translators the `docs` documents are reproduced
unchanged. -/
theorem c3_assembles_response {eps : Type}
    (ts : List (List Component × (JSON → Except eps JSON)))
    (tree0 : JSON) (objs : List JSON) (es rd : List (String × JSON))
    (htr : translate ts [tree0] = .ok objs)
    (hobj : objs.headD tree0 = .obj es)
    (hne : es ≠ [])
    (hrd : (dictGet (dictErase es "responseHeader") "response").getD (.obj []) = .obj rd)
    (hcond : ∀ kv ∈ dictErase rd "docs" ++ dictErase (dictErase es "responseHeader") "response",
        kv.1 ≠ "header" ∧ kv.1 ≠ "results"
        ∧ ((kv.1 = "numFound" ∨ kv.1 = "start" ∨ kv.1 = "maxScore") →
            ∃ n : Int, kv.2 = .num n))
    (hnodup : keysNodup
        (dictErase rd "docs" ++ dictErase (dictErase es "responseHeader") "response") = true) :
    parserCall ts tree0 = .ok (some
      { header := (dictGet es "responseHeader").getD .null,
        results := (dictGet rd "docs").getD (.arr []),
        attrs := (dictErase rd "docs" ++ dictErase (dictErase es "responseHeader") "response").filter
          (fun kv => kv.1 ≠ "name") }) := by
  unfold parserCall
  rw [htr]
  show (Except.ok objs >>= fun objs => _) = _
  simp only [bind, Except.bind]
  have hfal : ¬(falsy (JSON.obj es) = true) := by
    cases es with
    | nil => cases hne rfl
    | cons a l => simp [falsy]
  simp only [hobj, if_neg hfal]
  simp only [hrd]
  rw [foldlM_setAttr_append
    (dictErase rd "docs" ++ dictErase (dictErase es "responseHeader") "response")
    { header := (dictGet es "responseHeader").getD .null,
      results := (dictGet rd "docs").getD (.arr []), attrs := [] }
    hcond (fun kv _ => rfl) hnodup]
  simp only [List.nil_append, List.filter_append]
  rfl

/-- C3 witness: the amended claim applied at the spec's end-to-end sample
tree with zero translators: header and docs are extracted, and the
leftover `numFound` and `start` keys surface as attributes with their
values intact. -/
theorem c3_witness :
    parserCall ([] : List (List Component × (JSON → Except String JSON)))
        (sampleTree (.str "hello world") (.str "farewell world"))
      = .ok (some
        { header := .obj [("status", .num 0), ("QTime", .num 0)],
          results := .arr [sampleDoc (.str "hello world") "2012-02-22T00:00:01Z" "someid" 513,
            sampleDoc (.str "farewell world") "2012-02-23T00:00:01Z" "otherid" 111],
          attrs := [("numFound", .num 2), ("start", .num 0)] }) := by
  have h := c3_assembles_response ([] : List (List Component × (JSON → Except String JSON)))
    (sampleTree (.str "hello world") (.str "farewell world"))
    [sampleTree (.str "hello world") (.str "farewell world")]
    [("responseHeader", .obj [("status", .num 0), ("QTime", .num 0)]),
     ("response", .obj [("numFound", .num 2), ("start", .num 0),
        ("docs", .arr [sampleDoc (.str "hello world") "2012-02-22T00:00:01Z" "someid" 513,
                       sampleDoc (.str "farewell world") "2012-02-23T00:00:01Z" "otherid" 111])])]
    [("numFound", .num 2), ("start", .num 0),
     ("docs", .arr [sampleDoc (.str "hello world") "2012-02-22T00:00:01Z" "someid" 513,
                    sampleDoc (.str "farewell world") "2012-02-23T00:00:01Z" "otherid" 111])]
    rfl rfl (by simp)
    rfl
    (by
      intro kv hkv
      simp only [dictErase, dictGet] at hkv
      simp at hkv
      rcases hkv with rfl | rfl
      · exact ⟨by simp, by simp, fun _ => ⟨2, rfl⟩⟩
      · exact ⟨by simp, by simp, fun _ => ⟨0, rfl⟩⟩)
    rfl
  exact h.trans (by rfl)

end Solrpy
